import Mathlib

/-!
Shallow embedding of the indoor-navigation backend (`src/app.py`) and proofs
about it.  Coordinates are modelled as pairs of rationals; the Python code
compares Euclidean distances, and since `x ↦ x*x` is strictly monotone on
nonnegative reals, every distance *comparison* in the code is faithfully
modelled by comparing squared distances (`dist2` below), which keeps all
definitions executable.  Strings are modelled by Lean `String` with explicit
ASCII lower-casing / whitespace-stripping mirroring the Python `str` methods
used by the code.
-/

namespace IndoorNav

/-- Planar point, as produced by the geometry extraction (floats in the
source, rationals in the model). -/
abbrev Coord := ℚ × ℚ

/-- Squared Euclidean distance.  The source compares `Point.distance` values
(`math.sqrt` of this); comparisons of the two agree because squaring is
strictly monotone on nonnegative reals, so argmins and ties are identical. -/
def dist2 (p q : Coord) : ℚ :=
  (p.1 - q.1) * (p.1 - q.1) + (p.2 - q.2) * (p.2 - q.2)

/-! ### Python string primitives used by `app.py` -/

/-- Python `str.strip()`: drop whitespace at both ends. -/
def pyStrip (s : String) : String :=
  ⟨((s.data.dropWhile Char.isWhitespace).reverse.dropWhile Char.isWhitespace).reverse⟩

/-- Python `str.lower()` (ASCII, which covers every label in this app). -/
def pyLower (s : String) : String :=
  ⟨s.data.map Char.toLower⟩

/-- Composition `s.strip().lower()`, the combination the matcher applies
everywhere. -/
def stripLower (s : String) : String :=
  pyLower (pyStrip s)

/-- The alphanumeric-only residue used by `canonical` / stage 4 of
`find_best_match`: `"".join(ch for ch in s if ch.isalnum())`. -/
def alnumOnly (s : String) : String :=
  ⟨s.data.filter Char.isAlphanum⟩

/-- Does `needle` occur at the head of `hay`? (helper for substring tests) -/
def leadMatch : List Char → List Char → Bool
  | [], _ => true
  | _ :: _, [] => false
  | c :: cs, d :: ds => c == d && leadMatch cs ds

/-- Contiguous-substring test on character lists (Python `in` on `str`). -/
def hasSubList (needle : List Char) : List Char → Bool
  | [] => leadMatch needle []
  | d :: ds => leadMatch needle (d :: ds) || hasSubList needle ds

/-- Python `needle in hay` for strings. -/
def pyIn (needle hay : String) : Bool :=
  hasSubList needle.data hay.data

/-- Function `canonical(s)` from `app.py`: `(s.strip().lower(), alnum-residue)`. -/
def canonical (s : String) : String × String :=
  let s2 := stripLower s
  (s2, alnumOnly s2)

/-! ### NodeSnapper: `connect_to_corridor` (app.py lines 66-81)

The Python loop keeps `nearest`/`min_d`, starting from `None`/`inf`, and
replaces them on a strictly smaller distance.  Since the first node always
beats `inf`, this is the same as starting from the first node. -/

/-- Inner scan of `connect_to_corridor`: current best `b`, replace on a
strictly smaller (squared) distance — first minimum wins on ties. -/
def snapLoop (pt : Coord) : List Coord → Coord → Coord
  | [], b => b
  | n :: rest, b =>
      if dist2 pt n < dist2 pt b then snapLoop pt rest n else snapLoop pt rest b

/-- Function `connect_to_corridor(point, G)`: `none` on an empty node set,
otherwise the first node of minimal distance.  The graph is represented by
its node list in iteration order. -/
def connect_to_corridor (pt : Coord) : List Coord → Option Coord
  | [] => none
  | n :: rest => some (snapLoop pt rest n)

/-! ### RoomResolver: `canonical` / `find_best_match` (app.py lines 203-254) -/

/-- One entry of the module-level `all_rooms` list (app.py lines 178-196):
floor key, stripped type and name labels, and the geometry centroid. -/
structure Room where
  floor : String
  room_type : String
  room_name : String
  coords : Coord
deriving DecidableEq

/-- Result shape of `find_best_match`: `(match, centroid, candidates)` where
`match` is Python `None` or the pair `(floor, node)` — and `node` itself is
the possibly-`None` result of snapping the centroid. -/
abbrev MatchResult := Option (String × Option Coord) × Option Coord × List String

/-- Successful resolution of room `r`: snap its centroid onto its floor's
graph (app.py lines 217-221 and the analogous later stages). -/
def mkMatch (graphs : String → List Coord) (r : Room) (cands : List String) :
    MatchResult :=
  (some (r.floor, connect_to_corridor r.coords (graphs r.floor)), some r.coords, cands)

/-- Stage 1 of the cascade: exact stripped lower-cased room-name equality
(app.py lines 216-221); Python's first-hit `for` loop is `List.find?`. -/
def stageName (rooms : List Room) (qRaw : String) : Option Room :=
  rooms.find? (fun r => stripLower r.room_name == qRaw)

/-- Stage 2: exact stripped lower-cased room-type equality (lines 223-228). -/
def stageType (rooms : List Room) (qRaw : String) : Option Room :=
  rooms.find? (fun r => stripLower r.room_type == qRaw)

/-- Stage 3: all rooms whose lower-cased name contains the (nonempty) query
as a substring (lines 230-234, `if q_raw and q_raw in rn`). -/
def stageSubName (rooms : List Room) (qRaw : String) : List Room :=
  rooms.filter (fun r => (!(qRaw == "")) && pyIn qRaw (stripLower r.room_name))

/-- Stage 4: alphanumeric-normalized exact name equality, guarded by
`if q_alnum:` and `if rn_alnum and rn_alnum == q_alnum` (lines 240-245). -/
def stageAlnum (rooms : List Room) (qAlnum : String) : Option Room :=
  if qAlnum = "" then none
  else rooms.find? (fun r =>
    (!(alnumOnly (stripLower r.room_name) == "")) &&
      alnumOnly (stripLower r.room_name) == qAlnum)

/-- Stage 5: substring match against the room type (lines 247-251). -/
def stageSubType (rooms : List Room) (qRaw : String) : Option Room :=
  rooms.find? (fun r => (!(qRaw == "")) && pyIn qRaw (stripLower r.room_type))

/-- Function `find_best_match` (app.py lines 210-254).  The final
`difflib.get_close_matches(input_str, match_candidates, n=5, cutoff=0.6)`
fallback is external library code, modelled by the `fuzzy` parameter; no
claim here depends on its output.  `graphs` maps a floor key to the node
list of that floor's corridor graph (`floor_graphs[floor]`). -/
def find_best_match (rooms : List Room) (graphs : String → List Coord)
    (fuzzy : String → List String) (input_str : String) : MatchResult :=
  if input_str = "" then (none, none, [])
  else
    let q := canonical input_str
    match stageName rooms q.1 with
    | some r => mkMatch graphs r [r.room_name]
    | none =>
      match stageType rooms q.1 with
      | some r => mkMatch graphs r [r.room_type]
      | none =>
        match stageSubName rooms q.1 with
        | r :: rest => mkMatch graphs r (((r :: rest).take 10).map Room.room_name)
        | [] =>
          match stageAlnum rooms q.2 with
          | some r => mkMatch graphs r [r.room_name]
          | none =>
            match stageSubType rooms q.1 with
            | some r => mkMatch graphs r [r.room_type]
            | none => (none, none, fuzzy input_str)

/-- Models the guard `if not start_node:` in `get_path` (app.py line 280):
a Python 2-tuple such as `(floor, None)` is always truthy, so the guard
passes (resolution is treated as a success) whenever the first component is
not `None` — even when the snapped node inside it is `None`. -/
def start_check (m : MatchResult) : Bool :=
  m.1.isSome

/-! ### StaircaseLinker: `get_stair_pairs` (app.py lines 128-162) -/

/-- Python slice `s[:2]`. -/
def sliceFirst2 (s : String) : String :=
  ⟨s.data.take 2⟩

/-- Python slice `s[-2:]` (for strings shorter than two characters the slice
is the whole string, as in Python). -/
def sliceLast2 (s : String) : String :=
  ⟨s.data.drop (s.data.length - 2)⟩

/-- Name-similarity filter of `get_stair_pairs` (app.py line 154):
`name_a[:2] == name_b[:2] or name_a[-2:] == name_b[-2:]` on the trimmed,
lower-cased names. -/
def nameOk (na nb : String) : Bool :=
  sliceFirst2 na == sliceFirst2 nb || sliceLast2 na == sliceLast2 nb

/-- Staircase records of one floor: `type` contains "staircase",
case-insensitively (app.py lines 134-135). -/
def stairsOf (rooms : List Room) : List Room :=
  rooms.filter (fun r => pyIn "staircase" (pyLower r.room_type))

/-- Inner loop of `get_stair_pairs` (app.py lines 146-158): scan the upper
floor's staircases, keep the filtered candidate of strictly smallest
centroid distance (first minimum wins); the accumulator carries
`(best_match, min_dist)`. -/
def stairLoop (ca : Coord) (na : String) : List Room → Option (Coord × ℚ) → Option (Coord × ℚ)
  | [], acc => acc
  | r :: rest, acc =>
      if nameOk na (stripLower r.room_name) then
        let d := dist2 ca r.coords
        match acc with
        | none => stairLoop ca na rest (some (r.coords, d))
        | some (c0, d0) =>
            if d < d0 then stairLoop ca na rest (some (r.coords, d))
            else stairLoop ca na rest (some (c0, d0))
      else stairLoop ca na rest acc

/-- Lexicographic code-point comparison on character lists (Python string
`<=`), kept structural so it evaluates. -/
def strLeChars : List Char → List Char → Bool
  | [], _ => true
  | _ :: _, [] => false
  | c :: cs, d :: ds =>
      if c.toNat < d.toNat then true
      else if d.toNat < c.toNat then false
      else strLeChars cs ds

/-- Python string comparison `a <= b` (code-point lexicographic). -/
def strLe (a b : String) : Bool :=
  strLeChars a.data b.data

/-- Insertion step for the model of Python `sorted` on the floor keys. -/
def insertSorted (x : String) : List String → List String
  | [] => [x]
  | y :: ys => if strLe x y then x :: y :: ys else y :: insertSorted x ys

/-- Model of `sorted(floor_gdfs.keys())` (app.py line 130): ascending
insertion sort on the level identifiers. -/
def sortStr (l : List String) : List String :=
  l.foldr insertSorted []

/-- Dictionary lookup `floor_gdfs[lvl]` on the association-list model. -/
def lookupRecs (floorData : List (String × List Room)) (lvl : String) : List Room :=
  ((floorData.find? (fun p => p.1 == lvl)).map Prod.snd).getD []

/-- Function `get_stair_pairs` (app.py lines 128-162): for every pair of
floors adjacent in sorted key order, each lower staircase is paired with the
name-compatible upper staircase of minimal centroid distance (if any). -/
def get_stair_pairs (floorData : List (String × List Room)) :
    List ((String × Coord) × (String × Coord)) :=
  let levels := sortStr (floorData.map Prod.fst)
  (levels.zip levels.tail).flatMap (fun ab =>
    (stairsOf (lookupRecs floorData ab.1)).filterMap (fun ra =>
      (stairLoop ra.coords (stripLower ra.room_name)
          (stairsOf (lookupRecs floorData ab.2)) none).map
        (fun bd => ((ab.1, ra.coords), (ab.2, bd.1)))))

/-! ### CorridorGraphBuilder: `build_floor_graph` (app.py lines 48-64) -/

/-- One raw geometry record of a floor's GeoDataFrame: labels plus the
boundary decomposed into polylines (the `boundary`/`geoms` handling of
app.py lines 56-57) and the centroid. -/
structure GeomRecord where
  room_type : String
  room_name : String
  rings : List (List Coord)
  centroid : Coord
deriving DecidableEq

/-- Edges between consecutive vertices of one polyline (app.py lines 59-63).
The code stores the Euclidean distance as the weight; the model stores its
square, a choice no claim depends on (weights enter no claim numerically). -/
def ringEdges (cs : List Coord) : List (Coord × Coord × ℚ) :=
  (cs.zip cs.tail).map (fun pq => (pq.1, pq.2, dist2 pq.1 pq.2))

/-- Function `build_floor_graph` (app.py lines 48-64): keep the records whose
type contains "corridor" case-insensitively, and chain each boundary
polyline into weighted edges.  The graph is represented by its edge list;
`nx.Graph` nodes arise only from `add_edge` here, so the node set is the set
of edge endpoints. -/
def build_floor_graph (gdf : List GeomRecord) : List (Coord × Coord × ℚ) :=
  (gdf.filter (fun r => pyIn "corridor" (pyLower r.room_type))).flatMap
    (fun r => r.rings.flatMap ringEdges)

/-- Node list of an edge-list graph (endpoints in insertion order). -/
def nodesOf {α : Type} (G : List (α × α × ℚ)) : List α :=
  G.flatMap (fun e => [e.1, e.2.1])

/-! ### RouteSearch: model of `nx.astar_path` (app.py lines 297, 317)

The code calls `nx.astar_path(G_all, A, B, weight="weight")` with no
heuristic, i.e. Dijkstra on an undirected weighted graph (`nx.Graph`): it
returns a simple path of minimum total weight between its endpoints and
raises when no such path exists or an endpoint is missing (modelled as
`none`).  `route` below realises exactly that contract executably: it
enumerates every duplicate-free node sequence over the graph's node set,
keeps those that are edge-connected walks from `A` to `B`, and returns the
first of minimum total weight.  The claims settled here depend only on the
shortest-path contract, not on A*'s traversal order.  An edge list models
`nx.Graph`; in `app.py` every `G_all` node is introduced by an `add_edge`
call (floor-graph edges, stair connectors, stair pairs), so the node set is
the set of edge endpoints. -/

/-- Undirected weight lookup: first edge joining `u` and `v` in either
orientation (`nx.Graph` adjacency is symmetric). -/
def wlookup {α : Type} [DecidableEq α] (G : List (α × α × ℚ)) (u v : α) : Option ℚ :=
  (G.find? (fun e => (e.1 == u && e.2.1 == v) || (e.1 == v && e.2.1 == u))).map
    (fun e => e.2.2)

/-- Is the node sequence edge-connected? -/
def chainOk {α : Type} [DecidableEq α] (G : List (α × α × ℚ)) : List α → Bool
  | [] => true
  | [_] => true
  | a :: b :: rest => (wlookup G a b).isSome && chainOk G (b :: rest)

/-- Total weight of a node sequence (sum of looked-up edge weights). -/
def weightOf {α : Type} [DecidableEq α] (G : List (α × α × ℚ)) : List α → ℚ
  | a :: b :: rest => (wlookup G a b).getD 0 + weightOf G (b :: rest)
  | _ => 0

/-- All duplicate-free sequences of length at most `n` over `pool` (with
`pool` duplicate-free). -/
def seqsFrom {α : Type} [DecidableEq α] : Nat → List α → List (List α)
  | 0, _ => [[]]
  | n + 1, pool =>
      [] :: pool.flatMap (fun x => (seqsFrom n (pool.erase x)).map (x :: ·))

/-- All simple walks in `G` from `A` to `B`. -/
def pathCands {α : Type} [DecidableEq α] (G : List (α × α × ℚ)) (A B : α) :
    List (List α) :=
  (seqsFrom (nodesOf G).dedup.length (nodesOf G).dedup).filter
    (fun p => p.head? == some A && p.getLast? == some B && chainOk G p)

/-- Strict-minimum scan over candidate walks (first minimum wins). -/
def minWalk {α : Type} [DecidableEq α] (G : List (α × α × ℚ)) :
    List α → List (List α) → List α
  | best, [] => best
  | best, q :: rest =>
      if weightOf G q < weightOf G best then minWalk G q rest
      else minWalk G best rest

/-- Shortest-path model of `nx.astar_path` (see the section comment). -/
def route {α : Type} [DecidableEq α] (G : List (α × α × ℚ)) (A B : α) :
    Option (List α) :=
  match pathCands G A B with
  | [] => none
  | p :: rest => some (minWalk G p rest)

/-! ### Nearest-exit search: the "Exit" branch of `get_path`
(app.py lines 286-307) -/

/-- Node of the merged multi-floor graph: `(floor, coordinate)`. -/
abbrev GNode := String × Coord

/-- Total geometric length of a path, recomputed from consecutive waypoint
coordinates (app.py line 298: `sum(Point(u[1]).distance(Point(v[1])) ...)`).
The code uses the Euclidean metric; the metric is a parameter `d` here
because real square roots are not executable, and every theorem below holds
for every metric, in particular the Euclidean one. -/
def geomLen (d : Coord → Coord → ℚ) : List GNode → ℚ
  | a :: b :: rest => d a.2 b.2 + geomLen d (b :: rest)
  | _ => 0

/-- Exit candidates (app.py line 288): rooms whose type or name contains
"exit", case-insensitively. -/
def exitRooms (rooms : List Room) : List Room :=
  rooms.filter (fun r =>
    pyIn "exit" (pyLower r.room_type) || pyIn "exit" (pyLower r.room_name))

/-- One iteration's snap-and-search (app.py lines 293-298): snap the exit
room's centroid onto its floor graph (`continue` when that fails), then
run the path search from `start` (`continue` when it raises). -/
def exitCand (G : List (GNode × GNode × ℚ)) (graphs : String → List Coord)
    (start : GNode) (r : Room) : Option (GNode × List GNode) :=
  match connect_to_corridor r.coords (graphs r.floor) with
  | none => none
  | some n => (route G start (r.floor, n)).map (fun p => ((r.floor, n), p))

/-- Scan of all exit candidates (app.py lines 289-304): keep the candidate
of strictly smallest recomputed geometric length (first minimum wins); the
accumulator carries `(best, best_cent, best_len)`. -/
def exitLoop (d : Coord → Coord → ℚ) (G : List (GNode × GNode × ℚ))
    (graphs : String → List Coord) (start : GNode) :
    List Room → Option (GNode × Coord × ℚ) → Option (GNode × Coord × ℚ)
  | [], acc => acc
  | r :: rest, acc =>
      match exitCand G graphs start r with
      | none => exitLoop d G graphs start rest acc
      | some (b, p) =>
          let len := geomLen d p
          match acc with
          | none => exitLoop d G graphs start rest (some (b, r.coords, len))
          | some (b0, c0, l0) =>
              if len < l0 then exitLoop d G graphs start rest (some (b, r.coords, len))
              else exitLoop d G graphs start rest (some (b0, c0, l0))

/-- The "Exit" branch of `get_path` (app.py lines 286-307): the selected
end node and end centroid, or `none` ("No reachable emergency exit"). -/
def routeToNearestExit (d : Coord → Coord → ℚ) (G : List (GNode × GNode × ℚ))
    (graphs : String → List Coord) (rooms : List Room) (start : GNode) :
    Option (GNode × Coord) :=
  (exitLoop d G graphs start (exitRooms rooms) none).map (fun t => (t.1, t.2.1))

/-! ### Concrete single-exit scenario used to witness the exit search -/

/-- One exit-typed room at the corridor origin. -/
def exitDemoRooms : List Room :=
  [⟨"L", "exit", "e1", (0, 0)⟩]

/-- A one-edge global graph on floor "L". -/
def exitDemoGraph : List (GNode × GNode × ℚ) :=
  [(("L", (0, 0)), ("L", (1, 0)), 1)]

/-- The floor graphs: a single corridor node at the origin. -/
def exitDemoFloors : String → List Coord :=
  fun _ => [(0, 0)]

/-- The start node, already on the corridor. -/
def exitDemoStart : GNode :=
  ("L", (0, 0))

/-! ## Lemmas and claim theorems -/

/-- The scan returns its starting candidate or a list element. -/
lemma snapLoop_mem (pt : Coord) :
    ∀ (ns : List Coord) (b : Coord), snapLoop pt ns b ∈ b :: ns := by
  intro ns
  induction ns with
  | nil => intro b; simp [snapLoop]
  | cons n rest ih =>
      intro b
      by_cases h : dist2 pt n < dist2 pt b
      · have := ih n
        simp [snapLoop, h]
        rcases List.mem_cons.mp this with h1 | h1
        · exact Or.inr (Or.inl h1)
        · exact Or.inr (Or.inr h1)
      · have := ih b
        simp [snapLoop, h]
        rcases List.mem_cons.mp this with h1 | h1
        · exact Or.inl h1
        · exact Or.inr (Or.inr h1)

/-- Full characterisation of the scan: the result splits the candidate list
`b :: ns` as `pre ++ result :: post` with the result strictly closer than
everything before it and at least as close as everything after it (i.e. the
first minimum wins). -/
lemma snapLoop_first (pt : Coord) :
    ∀ (ns : List Coord) (b : Coord),
      ∃ pre post, b :: ns = pre ++ snapLoop pt ns b :: post ∧
        (∀ m ∈ pre, dist2 pt (snapLoop pt ns b) < dist2 pt m) ∧
        (∀ m ∈ post, dist2 pt (snapLoop pt ns b) ≤ dist2 pt m) := by
  intro ns
  induction ns with
  | nil =>
      intro b
      exact ⟨[], [], by simp [snapLoop], by simp, by simp⟩
  | cons n rest ih =>
      intro b
      by_cases h : dist2 pt n < dist2 pt b
      · -- candidate replaced by n
        obtain ⟨pre, post, hsplit, hpre, hpost⟩ := ih n
        have hres : snapLoop pt (n :: rest) b = snapLoop pt rest n := by
          simp [snapLoop, h]
        refine ⟨b :: pre, post, ?_, ?_, ?_⟩
        · rw [hres]; simpa using congrArg (b :: ·) hsplit
        · intro m hm
          rcases List.mem_cons.mp hm with rfl | hm'
          · -- result is at distance ≤ dist n < dist b
            have hle : dist2 pt (snapLoop pt rest n) ≤ dist2 pt n := by
              rcases pre with _ | ⟨p0, ps⟩
              · -- pre empty: head of n :: rest is the result itself
                have hh : n = snapLoop pt rest n := by
                  have := hsplit
                  simp at this
                  exact this.1
                rw [← hh]
              · -- n is the head of pre, hence strictly farther
                have hn : n = p0 := by
                  have := hsplit
                  simp at this
                  exact this.1
                have hlt := hpre p0 (by simp)
                have hd : dist2 pt n = dist2 pt p0 := by rw [hn]
                rw [hd]
                exact le_of_lt hlt
            rw [hres]; exact lt_of_le_of_lt hle h
          · rw [hres]; exact hpre m hm'
        · intro m hm
          rw [hres]; exact hpost m hm
      · -- candidate b kept; n is rejected (dist n ≥ dist b)
        obtain ⟨pre, post, hsplit, hpre, hpost⟩ := ih b
        have hres : snapLoop pt (n :: rest) b = snapLoop pt rest b := by
          simp [snapLoop, h]
        have hble : dist2 pt b ≤ dist2 pt n := le_of_not_lt h
        -- the result is ≤ dist b in all cases
        have hrle : dist2 pt (snapLoop pt rest b) ≤ dist2 pt b := by
          rcases pre with _ | ⟨p0, ps⟩
          · have : b = snapLoop pt rest b := by
              have := hsplit; simp at this; exact this.1
            rw [← this]
          · have hb : b = p0 := by
              have := hsplit; simp at this; exact this.1
            have := hpre p0 (by simp)
            exact le_of_lt (hb ▸ this)
        rcases pre with _ | ⟨p0, ps⟩
        · -- result is b itself: everything else goes to post
          have hhead : b = snapLoop pt rest b ∧ rest = post := by
            have := hsplit; simp at this; exact this
          refine ⟨[], n :: rest, by simp [hres, ← hhead.1], by simp, ?_⟩
          intro m hm
          rcases List.mem_cons.mp hm with rfl | hm'
          · rw [hres, ← hhead.1]; exact hble
          · rw [hres]
            exact hpost m (hhead.2 ▸ hm')
        · -- result sits inside rest: b = p0, insert n after b in pre
          have hb : b = p0 := by
            have := hsplit; simp at this; exact this.1
          have hrest : rest = ps ++ snapLoop pt rest b :: post := by
            have := hsplit; simp at this; exact this.2
          have hstrict : dist2 pt (snapLoop pt rest b) < dist2 pt b := by
            have := hpre p0 (by simp)
            exact hb ▸ this
          refine ⟨b :: n :: ps, post, ?_, ?_, ?_⟩
          · rw [hres]
            exact congrArg (fun t => b :: n :: t) hrest
          · intro m hm
            rw [hres]
            rcases List.mem_cons.mp hm with rfl | hm'
            · exact hstrict
            · rcases List.mem_cons.mp hm' with rfl | hm''
              · exact lt_of_lt_of_le hstrict hble
              · exact hpre m (by simp [hm''])
          · intro m hm
            rw [hres]; exact hpost m hm

/-- Claim C5: `connect_to_corridor` returns `none` exactly when the graph has
zero nodes; on a non-empty graph it returns a node of the graph whose
(squared) Euclidean distance to the query point is ≤ that of every other
node, and on ties the first node in iteration order with the minimum
distance wins (the node list splits as `pre ++ n :: post` with `n` strictly
closer than everything before it). -/
theorem connect_to_corridor_spec (pt : Coord) (ns : List Coord) :
    (connect_to_corridor pt ns = none ↔ ns = []) ∧
    (∀ n, connect_to_corridor pt ns = some n →
      ∃ pre post, ns = pre ++ n :: post ∧
        (∀ m ∈ pre, dist2 pt n < dist2 pt m) ∧
        (∀ m ∈ post, dist2 pt n ≤ dist2 pt m)) := by
  constructor
  · cases ns <;> simp [connect_to_corridor]
  · intro n hn
    cases ns with
    | nil => simp [connect_to_corridor] at hn
    | cons x rest =>
        have hx : snapLoop pt rest x = n := by
          simpa [connect_to_corridor] using hn
        obtain ⟨pre, post, hsplit, hpre, hpost⟩ := snapLoop_first pt rest x
        exact ⟨pre, post, hx ▸ hsplit, hx ▸ hpre, hx ▸ hpost⟩

/-- Witness for C5 at a concrete graph: the point `(0,0)` snaps to `(1,0)`,
the first of the two equidistant closest nodes. -/
theorem connect_to_corridor_spec_witness :
    ∃ pre post,
      [((2 : ℚ), (0 : ℚ)), (1, 0), (-1, 0)] = pre ++ ((1 : ℚ), (0 : ℚ)) :: post ∧
        (∀ m ∈ pre, dist2 (0, 0) (1, 0) < dist2 (0, 0) m) ∧
        (∀ m ∈ post, dist2 (0, 0) (1, 0) ≤ dist2 (0, 0) m) :=
  (connect_to_corridor_spec (0, 0) [(2, 0), (1, 0), (-1, 0)]).2 (1, 0)
    (by norm_num [connect_to_corridor, snapLoop, dist2])

/-- Claim C1 (code bug): when the matched room's floor graph has zero nodes,
`find_best_match` does NOT fail — it returns a success value
`((floor, None), centroid, [name])` whose node component is `None`, and the
caller's guard `if not start_node:` (a truthiness test on a 2-tuple) treats
it as a success, so the node-less location flows into `nx.astar_path`.  This
contradicts the spec, which demands a structured failure ("matched but
unreachable"). -/
theorem find_best_match_empty_graph_bug :
    find_best_match [⟨"Level_1", "room", "a", (0, 0)⟩] (fun _ => []) (fun _ => []) "a"
        = (some ("Level_1", none), some ((0 : ℚ), (0 : ℚ)), ["a"]) ∧
    start_check
        (find_best_match [⟨"Level_1", "room", "a", (0, 0)⟩] (fun _ => []) (fun _ => []) "a")
        = true := by
  constructor <;> rfl

/-- Counterexample to claim C2: a whitespace-only (but nonempty) query is not
rejected by the `if not input_str:` guard; it canonicalizes to `""` and
matches a room whose name is the empty string at the exact-name stage, so
resolution succeeds instead of failing with empty candidates. -/
theorem blank_query_matches_empty_name :
    (find_best_match [⟨"Level_1", "", "", (0, 0)⟩] (fun _ => [(0, 0)]) (fun _ => []) " ").1
      = some ("Level_1", some ((0 : ℚ), (0 : ℚ))) := by
  rfl

/-- Claim C2 as amended: only the truly empty query fails immediately with an
empty candidate list (for every room set); a whitespace-only query instead
canonicalizes to the empty string and is resolved through the normal
cascade, where it matches the first room whose stripped name is empty. -/
theorem empty_query_fails_with_empty_candidates :
    (∀ rooms graphs fuzzy,
        find_best_match rooms graphs fuzzy "" = (none, none, [])) ∧
    (∀ (q : String) rooms graphs fuzzy r,
        q ≠ "" → pyStrip q = "" → stageName rooms "" = some r →
        find_best_match rooms graphs fuzzy q = mkMatch graphs r [r.room_name]) := by
  constructor
  · intro rooms graphs fuzzy
    rfl
  · intro q rooms graphs fuzzy r hq hstrip hstage
    have hcanon : stripLower q = "" := by
      simp [stripLower, hstrip, pyLower]
    simp only [find_best_match, if_neg hq, canonical, hcanon]
    rw [hstage]

/-- Witness for the amended C2: the single-space query resolves via the
exact-name stage to a room whose name is empty. -/
theorem empty_query_fails_with_empty_candidates_witness :
    find_best_match [⟨"Level_1", "", "", ((0 : ℚ), (0 : ℚ))⟩] (fun _ => [(0, 0)])
        (fun _ => []) " "
      = mkMatch (fun _ => [(0, 0)]) ⟨"Level_1", "", "", (0, 0)⟩ [""] :=
  (empty_query_fails_with_empty_candidates).2 " "
    [⟨"Level_1", "", "", (0, 0)⟩] (fun _ => [(0, 0)]) (fun _ => [])
    ⟨"Level_1", "", "", (0, 0)⟩ (by decide) (by decide) (by decide)

/-- Claim C3: the resolution cascade is strictly ordered — for every nonempty
query, the first stage (exact name, exact type, name substring, normalized
alphanumeric name, type substring) producing a match determines the result,
later stages are never consulted, and when every stage fails the result is a
failure carrying the fuzzy suggestions.  In particular a query equal to one
room's exact name resolves there even if it is a substring of another
room's name. -/
theorem cascade_first_stage_wins (rooms : List Room) (graphs : String → List Coord)
    (fuzzy : String → List String) (q : String) (hq : q ≠ "") :
    (∀ r, stageName rooms (canonical q).1 = some r →
        find_best_match rooms graphs fuzzy q = mkMatch graphs r [r.room_name]) ∧
    (stageName rooms (canonical q).1 = none →
      ∀ r, stageType rooms (canonical q).1 = some r →
        find_best_match rooms graphs fuzzy q = mkMatch graphs r [r.room_type]) ∧
    (stageName rooms (canonical q).1 = none →
      stageType rooms (canonical q).1 = none →
      ∀ r rest, stageSubName rooms (canonical q).1 = r :: rest →
        find_best_match rooms graphs fuzzy q
          = mkMatch graphs r (((r :: rest).take 10).map Room.room_name)) ∧
    (stageName rooms (canonical q).1 = none →
      stageType rooms (canonical q).1 = none →
      stageSubName rooms (canonical q).1 = [] →
      ∀ r, stageAlnum rooms (canonical q).2 = some r →
        find_best_match rooms graphs fuzzy q = mkMatch graphs r [r.room_name]) ∧
    (stageName rooms (canonical q).1 = none →
      stageType rooms (canonical q).1 = none →
      stageSubName rooms (canonical q).1 = [] →
      stageAlnum rooms (canonical q).2 = none →
      ∀ r, stageSubType rooms (canonical q).1 = some r →
        find_best_match rooms graphs fuzzy q = mkMatch graphs r [r.room_type]) ∧
    (stageName rooms (canonical q).1 = none →
      stageType rooms (canonical q).1 = none →
      stageSubName rooms (canonical q).1 = [] →
      stageAlnum rooms (canonical q).2 = none →
      stageSubType rooms (canonical q).1 = none →
      find_best_match rooms graphs fuzzy q = (none, none, fuzzy q)) := by
  refine ⟨?_, ?_, ?_, ?_, ?_, ?_⟩
  · intro r h1
    simp only [find_best_match, if_neg hq, h1]
  · intro h1 r h2
    simp only [find_best_match, if_neg hq, h1, h2]
  · intro h1 h2 r rest h3
    simp only [find_best_match, if_neg hq, h1, h2, h3]
  · intro h1 h2 h3 r h4
    simp only [find_best_match, if_neg hq, h1, h2, h3, h4]
  · intro h1 h2 h3 h4 r h5
    simp only [find_best_match, if_neg hq, h1, h2, h3, h4, h5]
  · intro h1 h2 h3 h4 h5
    simp only [find_best_match, if_neg hq, h1, h2, h3, h4, h5]

/-- Witness for C3: the query is the exact name of the first room and a
substring of the second room's name; the exact-name room wins. -/
theorem cascade_first_stage_wins_witness :
    find_best_match
        [⟨"Level_1", "office", "ab", ((0 : ℚ), (0 : ℚ))⟩,
         ⟨"Level_1", "office", "abc", (1, 1)⟩]
        (fun _ => [(0, 0)]) (fun _ => []) "ab"
      = mkMatch (fun _ => [(0, 0)]) ⟨"Level_1", "office", "ab", (0, 0)⟩ ["ab"] :=
  (cascade_first_stage_wins
      [⟨"Level_1", "office", "ab", (0, 0)⟩, ⟨"Level_1", "office", "abc", (1, 1)⟩]
      (fun _ => [(0, 0)]) (fun _ => []) "ab" (by decide)).1
    ⟨"Level_1", "office", "ab", (0, 0)⟩ (by decide)

/-- Counterexample to claim C4 as stated: a query and a room name whose
alphanumeric-normalized forms are both the empty string (so they are equal
after normalization) with no earlier stage matching — the normalized stage
is skipped by the `if q_alnum:` guard and resolution fails instead of
succeeding. -/
theorem normalized_match_empty_residue_cex :
    alnumOnly (stripLower "-") = alnumOnly (stripLower ".") ∧
    stageName [⟨"Level_1", "office", ".", ((0 : ℚ), (0 : ℚ))⟩] (canonical "-").1 = none ∧
    stageType [⟨"Level_1", "office", ".", ((0 : ℚ), (0 : ℚ))⟩] (canonical "-").1 = none ∧
    stageSubName [⟨"Level_1", "office", ".", ((0 : ℚ), (0 : ℚ))⟩] (canonical "-").1 = [] ∧
    (find_best_match [⟨"Level_1", "office", ".", (0, 0)⟩]
        (fun _ => [(0, 0)]) (fun _ => []) "-").1 = none := by
  refine ⟨rfl, rfl, rfl, rfl, rfl⟩

/-- Claim C4 as amended: whenever some room's name agrees with the query
after stripping non-alphanumeric characters and lower-casing, the common
normalized string is non-empty, and no earlier stage (exact name, exact
type, name substring) matches, resolution succeeds via the
normalized-alphanumeric stage (at the first room whose normalized name
matches). -/
theorem normalized_stage_match (rooms : List Room) (graphs : String → List Coord)
    (fuzzy : String → List String) (q : String) (r : Room)
    (hmem : r ∈ rooms)
    (heq : alnumOnly (stripLower r.room_name) = (canonical q).2)
    (hne : (canonical q).2 ≠ "")
    (h1 : stageName rooms (canonical q).1 = none)
    (h2 : stageType rooms (canonical q).1 = none)
    (h3 : stageSubName rooms (canonical q).1 = []) :
    ∃ r', stageAlnum rooms (canonical q).2 = some r' ∧
      alnumOnly (stripLower r'.room_name) = (canonical q).2 ∧
      find_best_match rooms graphs fuzzy q = mkMatch graphs r' [r'.room_name] := by
  have hq : q ≠ "" := by
    intro hq0
    subst hq0
    exact hne rfl
  -- the stage-4 predicate holds at r, so find? succeeds at some first r'
  have hpred : (fun r : Room =>
      (!(alnumOnly (stripLower r.room_name) == "")) &&
        alnumOnly (stripLower r.room_name) == (canonical q).2) r = true := by
    simp only [Bool.and_eq_true, bne_iff_ne, beq_iff_eq, Bool.not_eq_true']
    constructor
    · simp only [beq_eq_false_iff_ne, ne_eq]
      rw [heq]
      exact hne
    · exact heq
  have hsome : (rooms.find? (fun r : Room =>
      (!(alnumOnly (stripLower r.room_name) == "")) &&
        alnumOnly (stripLower r.room_name) == (canonical q).2)).isSome := by
    rw [List.find?_isSome]
    exact ⟨r, hmem, hpred⟩
  obtain ⟨r', hr'⟩ := Option.isSome_iff_exists.mp hsome
  have h4 : stageAlnum rooms (canonical q).2 = some r' := by
    simp only [stageAlnum, if_neg hne]
    exact hr'
  have hr'eq : alnumOnly (stripLower r'.room_name) = (canonical q).2 := by
    have hp := List.find?_some hr'
    simp only [Bool.and_eq_true, beq_iff_eq] at hp
    exact hp.2
  refine ⟨r', h4, hr'eq, ?_⟩
  simp only [find_best_match, if_neg hq, h1, h2, h3, h4]

/-- Witness for the amended C4: query "S 2-01" resolves to the record named
"s201" through the normalized-alphanumeric stage. -/
theorem normalized_stage_match_witness :
    ∃ r', stageAlnum [⟨"Level_1", "office", "s201", ((0 : ℚ), (0 : ℚ))⟩]
            (canonical "S 2-01").2 = some r' ∧
      alnumOnly (stripLower r'.room_name) = (canonical "S 2-01").2 ∧
      find_best_match [⟨"Level_1", "office", "s201", (0, 0)⟩]
          (fun _ => [(0, 0)]) (fun _ => []) "S 2-01"
        = mkMatch (fun _ => [(0, 0)]) r' [r'.room_name] :=
  normalized_stage_match [⟨"Level_1", "office", "s201", (0, 0)⟩]
    (fun _ => [(0, 0)]) (fun _ => []) "S 2-01"
    ⟨"Level_1", "office", "s201", (0, 0)⟩
    (by decide) (by decide) (by decide) (by decide) (by decide) (by decide)

/-- Characterisation of the inner staircase scan: a produced candidate comes
from the accumulator or from a list element passing the name filter, its
recorded distance undercuts any starting accumulator, and it is minimal
among all filtered candidates of the list. -/
lemma stairLoop_spec (ca : Coord) (na : String) :
    ∀ (l : List Room) (acc : Option (Coord × ℚ)) (cb : Coord) (d : ℚ),
      stairLoop ca na l acc = some (cb, d) →
      (acc = some (cb, d) ∨
        ∃ rb ∈ l, nameOk na (stripLower rb.room_name) = true ∧
          rb.coords = cb ∧ d = dist2 ca rb.coords) ∧
      (∀ c0 d0, acc = some (c0, d0) → d ≤ d0) ∧
      (∀ rb ∈ l, nameOk na (stripLower rb.room_name) = true →
        d ≤ dist2 ca rb.coords) := by
  intro l
  induction l with
  | nil =>
      intro acc cb d h
      refine ⟨Or.inl (by simpa [stairLoop] using h), ?_, by simp⟩
      intro c0 d0 hacc
      rw [hacc] at h
      simp [stairLoop] at h
      exact le_of_eq h.2.symm
  | cons r rest ih =>
      intro acc cb d h
      by_cases hn : nameOk na (stripLower r.room_name) = true
      · rcases hacc : acc with _ | ⟨c0, d0⟩
        · -- accumulator empty: it becomes (r.coords, dist)
          rw [hacc] at h
          simp only [stairLoop, hn, if_true] at h
          obtain ⟨h1, h2, h3⟩ := ih _ cb d h
          refine ⟨?_, by simp, ?_⟩
          · rcases h1 with h1 | ⟨rb, hrb, hok, hc, hd⟩
            · simp at h1
              exact Or.inr ⟨r, by simp, hn, h1.1, h1.2.symm⟩
            · exact Or.inr ⟨rb, by simp [hrb], hok, hc, hd⟩
          · intro rb hrb hok
            rcases List.mem_cons.mp hrb with rfl | hrb'
            · exact h2 _ _ rfl
            · exact h3 rb hrb' hok
        · by_cases hlt : dist2 ca r.coords < d0
          · -- strictly closer: accumulator replaced
            rw [hacc] at h
            simp only [stairLoop, hn, if_true, hlt] at h
            obtain ⟨h1, h2, h3⟩ := ih _ cb d h
            refine ⟨?_, ?_, ?_⟩
            · rcases h1 with h1 | ⟨rb, hrb, hok, hc, hd⟩
              · simp at h1
                exact Or.inr ⟨r, by simp, hn, h1.1, h1.2.symm⟩
              · exact Or.inr ⟨rb, by simp [hrb], hok, hc, hd⟩
            · intro c0' d0' hacc'
              cases hacc'
              exact le_of_lt (lt_of_le_of_lt (h2 _ _ rfl) hlt)
            · intro rb hrb hok
              rcases List.mem_cons.mp hrb with rfl | hrb'
              · exact h2 _ _ rfl
              · exact h3 rb hrb' hok
          · -- not closer: accumulator kept
            rw [hacc] at h
            simp only [stairLoop, hn, if_true, hlt, if_false] at h
            obtain ⟨h1, h2, h3⟩ := ih _ cb d h
            have hd0 : d ≤ d0 := h2 _ _ rfl
            refine ⟨?_, ?_, ?_⟩
            · rcases h1 with h1 | ⟨rb, hrb, hok, hc, hd⟩
              · exact Or.inl (hacc ▸ h1)
              · exact Or.inr ⟨rb, by simp [hrb], hok, hc, hd⟩
            · intro c0' d0' hacc'
              cases hacc'
              exact hd0
            · intro rb hrb hok
              rcases List.mem_cons.mp hrb with rfl | hrb'
              · exact le_trans hd0 (le_of_not_lt hlt)
              · exact h3 rb hrb' hok
      · -- name filter fails: r is skipped entirely
        rw [stairLoop] at h
        rw [if_neg hn] at h
        obtain ⟨h1, h2, h3⟩ := ih _ cb d h
        refine ⟨?_, h2, ?_⟩
        · rcases h1 with h1 | ⟨rb, hrb, hok, hc, hd⟩
          · exact Or.inl h1
          · exact Or.inr ⟨rb, by simp [hrb], hok, hc, hd⟩
        · intro rb hrb hok
          rcases List.mem_cons.mp hrb with rfl | hrb'
          · exact absurd hok hn
          · exact h3 rb hrb' hok

/-- Claim C6: every pair emitted by `get_stair_pairs` joins two floors that
are adjacent in sorted identifier order (so floors two or more levels apart
are never linked), comes from staircase records passing the
first-two-or-last-two-characters name filter, and the chosen upper
staircase has minimal centroid distance among all filtered candidates. -/
theorem stair_pairs_spec (floorData : List (String × List Room)) :
    ∀ pr ∈ get_stair_pairs floorData,
      (pr.1.1, pr.2.1) ∈
        (sortStr (floorData.map Prod.fst)).zip (sortStr (floorData.map Prod.fst)).tail ∧
      ∃ ra ∈ stairsOf (lookupRecs floorData pr.1.1),
        ra.coords = pr.1.2 ∧
        ∃ rb ∈ stairsOf (lookupRecs floorData pr.2.1),
          rb.coords = pr.2.2 ∧
          nameOk (stripLower ra.room_name) (stripLower rb.room_name) = true ∧
          ∀ rb' ∈ stairsOf (lookupRecs floorData pr.2.1),
            nameOk (stripLower ra.room_name) (stripLower rb'.room_name) = true →
            dist2 pr.1.2 pr.2.2 ≤ dist2 pr.1.2 rb'.coords := by
  intro pr hpr
  simp only [get_stair_pairs, List.mem_flatMap] at hpr
  obtain ⟨ab, hab, hmem⟩ := hpr
  rw [List.mem_filterMap] at hmem
  obtain ⟨ra, hra, hmap⟩ := hmem
  rcases hloop : stairLoop ra.coords (stripLower ra.room_name)
      (stairsOf (lookupRecs floorData ab.2)) none with _ | ⟨cb, d⟩
  · rw [hloop] at hmap; simp at hmap
  · rw [hloop] at hmap
    simp only [Option.map_some', Option.some.injEq] at hmap
    obtain ⟨h1, _h2, h3⟩ := stairLoop_spec ra.coords (stripLower ra.room_name) _ none cb d hloop
    rcases h1 with h1 | ⟨rb, hrb, hok, hc, hd⟩
    · exact absurd h1 (by simp)
    · subst hmap
      refine ⟨hab, ra, hra, rfl, rb, hrb, hc, hok, ?_⟩
      intro rb' hrb' hok'
      have hle := h3 rb' hrb' hok'
      rw [hd, hc] at hle
      exact hle

/-- Witness for C6 at a concrete two-floor layout: "SG01" is linked to
"S201" (shared last two characters) and not to the closer-named mismatch. -/
theorem stair_pairs_spec_witness :
    (("Level_1", ((0 : ℚ), (0 : ℚ))), ("Level_2", ((0 : ℚ), (1 : ℚ)))) ∈
        get_stair_pairs
          [("Level_1", [⟨"Level_1", "staircase", "SG01", (0, 0)⟩]),
           ("Level_2", [⟨"Level_2", "staircase", "S999", (5, 5)⟩,
                        ⟨"Level_2", "staircase", "S201", (0, 1)⟩])] ∧
    ∃ ra ∈ stairsOf (lookupRecs
          [("Level_1", [⟨"Level_1", "staircase", "SG01", (0, 0)⟩]),
           ("Level_2", [⟨"Level_2", "staircase", "S999", (5, 5)⟩,
                        ⟨"Level_2", "staircase", "S201", (0, 1)⟩])] "Level_1"),
        ra.coords = ((0 : ℚ), (0 : ℚ)) ∧
        ∃ rb ∈ stairsOf (lookupRecs
            [("Level_1", [⟨"Level_1", "staircase", "SG01", (0, 0)⟩]),
             ("Level_2", [⟨"Level_2", "staircase", "S999", (5, 5)⟩,
                          ⟨"Level_2", "staircase", "S201", (0, 1)⟩])] "Level_2"),
          rb.coords = ((0 : ℚ), (1 : ℚ)) ∧
          nameOk (stripLower ra.room_name) (stripLower rb.room_name) = true ∧
          ∀ rb' ∈ stairsOf (lookupRecs
              [("Level_1", [⟨"Level_1", "staircase", "SG01", (0, 0)⟩]),
               ("Level_2", [⟨"Level_2", "staircase", "S999", (5, 5)⟩,
                            ⟨"Level_2", "staircase", "S201", (0, 1)⟩])] "Level_2"),
            nameOk (stripLower ra.room_name) (stripLower rb'.room_name) = true →
            dist2 ((0 : ℚ), (0 : ℚ)) ((0 : ℚ), (1 : ℚ)) ≤ dist2 ((0 : ℚ), (0 : ℚ)) rb'.coords := by
  have h := stair_pairs_spec
    [("Level_1", [⟨"Level_1", "staircase", "SG01", (0, 0)⟩]),
     ("Level_2", [⟨"Level_2", "staircase", "S999", (5, 5)⟩,
                  ⟨"Level_2", "staircase", "S201", (0, 1)⟩])]
    (("Level_1", (0, 0)), ("Level_2", (0, 1))) (by decide)
  exact ⟨by decide, h.2⟩

/-- Stripping to the empty string makes the strip-then-lower value empty. -/
lemma stripLower_of_pyStrip_empty (s : String) (h : pyStrip s = "") :
    stripLower s = "" := by
  simp [stripLower, h, pyLower]

/-- The staircase scan never drops a non-empty accumulator. -/
lemma stairLoop_isSome_of_acc (ca : Coord) (na : String) :
    ∀ (l : List Room) (c0 : Coord) (d0 : ℚ),
      (stairLoop ca na l (some (c0, d0))).isSome = true := by
  intro l
  induction l with
  | nil => intro c0 d0; rfl
  | cons r rest ih =>
      intro c0 d0
      by_cases hn : nameOk na (stripLower r.room_name) = true
      · simp only [stairLoop, hn, if_true]
        by_cases hlt : dist2 ca r.coords < d0
        · simp only [hlt, if_true]; exact ih _ _
        · simp only [hlt, if_false]; exact ih _ _
      · simp only [stairLoop, hn, if_false]
        exact ih _ _

/-- Claim C10: two staircases whose names are empty after trimming always
pass the name-similarity filter (both two-character slices are empty and
compare equal), so among empty-named staircases the scan pairs purely by
centroid proximity — it returns a member of the candidate list with minimal
centroid distance, and it succeeds whenever the candidate list is
non-empty.  Empty names are not matchless for staircase linking. -/
theorem empty_stair_names_not_matchless :
    (∀ sa sb : String, pyStrip sa = "" → pyStrip sb = "" →
      nameOk (stripLower sa) (stripLower sb) = true) ∧
    (∀ (sa : String) (ca : Coord) (stairsB : List Room),
      pyStrip sa = "" →
      (∀ r ∈ stairsB, pyStrip r.room_name = "") →
      ∀ cb d, stairLoop ca (stripLower sa) stairsB none = some (cb, d) →
        (∃ rb ∈ stairsB, rb.coords = cb) ∧
        ∀ r ∈ stairsB, dist2 ca cb ≤ dist2 ca r.coords) ∧
    (∀ (sa : String) (ca : Coord) (stairsB : List Room),
      pyStrip sa = "" →
      (∀ r ∈ stairsB, pyStrip r.room_name = "") →
      stairsB ≠ [] →
      (stairLoop ca (stripLower sa) stairsB none).isSome = true) := by
  have hok : ∀ sa sb : String, pyStrip sa = "" → pyStrip sb = "" →
      nameOk (stripLower sa) (stripLower sb) = true := by
    intro sa sb ha hb
    rw [stripLower_of_pyStrip_empty sa ha, stripLower_of_pyStrip_empty sb hb]
    rfl
  refine ⟨hok, ?_, ?_⟩
  · intro sa ca stairsB ha hall cb d h
    obtain ⟨h1, _h2, h3⟩ := stairLoop_spec ca (stripLower sa) stairsB none cb d h
    rcases h1 with h1 | ⟨rb, hrb, _hok, hc, hd⟩
    · exact absurd h1 (by simp)
    · constructor
      · exact ⟨rb, hrb, hc⟩
      · intro r hr
        have := h3 r hr (hok sa r.room_name ha (hall r hr))
        rw [hd, hc] at this
        exact this
  · intro sa ca stairsB ha hall hne
    cases stairsB with
    | nil => exact absurd rfl hne
    | cons r rest =>
        have hn := hok sa r.room_name ha (hall r (by simp))
        simp only [stairLoop, hn, if_true]
        exact stairLoop_isSome_of_acc _ _ _ _ _

/-- Witness for C10: a blank-named lower staircase is paired with the single
blank-named upper staircase, by proximity alone. -/
theorem empty_stair_names_not_matchless_witness :
    (∃ rb ∈ [(⟨"Level_2", "staircase", " ", ((0 : ℚ), (1 : ℚ))⟩ : Room)],
        rb.coords = ((0 : ℚ), (1 : ℚ))) ∧
    ∀ r ∈ [(⟨"Level_2", "staircase", " ", ((0 : ℚ), (1 : ℚ))⟩ : Room)],
      dist2 (0, 0) ((0 : ℚ), (1 : ℚ)) ≤ dist2 (0, 0) r.coords :=
  (empty_stair_names_not_matchless).2.1 "  " (0, 0)
    [⟨"Level_2", "staircase", " ", (0, 1)⟩]
    (by decide) (by decide) (0, 1) (dist2 (0, 0) (0, 1)) rfl

/-- Claim C9: a floor with no corridor-labelled record yields a graph with
zero edges and zero nodes, not an error. -/
theorem build_floor_graph_no_corridor (gdf : List GeomRecord)
    (h : ∀ r ∈ gdf, pyIn "corridor" (pyLower r.room_type) = false) :
    build_floor_graph gdf = [] ∧ nodesOf (build_floor_graph gdf) = [] := by
  have hf : gdf.filter (fun r => pyIn "corridor" (pyLower r.room_type)) = [] := by
    rw [List.filter_eq_nil_iff]
    intro a ha
    simp [h a ha]
  refine ⟨?_, ?_⟩
  · simp [build_floor_graph, hf]
  · simp [build_floor_graph, hf, nodesOf]

/-- Witness for C9: one office-only floor (with geometry) builds the empty
graph. -/
theorem build_floor_graph_no_corridor_witness :
    build_floor_graph [⟨"office", "a", [[((0 : ℚ), (0 : ℚ)), (1, 0)]], (0, 0)⟩] = [] ∧
    nodesOf (build_floor_graph
        [⟨"office", "a", [[((0 : ℚ), (0 : ℚ)), (1, 0)]], (0, 0)⟩]) = [] :=
  build_floor_graph_no_corridor
    [⟨"office", "a", [[((0 : ℚ), (0 : ℚ)), (1, 0)]], (0, 0)⟩] (by decide)

section RouteLemmas

variable {α : Type} [DecidableEq α]

/-- Undirected lookup is symmetric by construction (`nx.Graph`). -/
lemma wlookup_symm (G : List (α × α × ℚ)) (u v : α) :
    wlookup G u v = wlookup G v u := by
  have hfun : (fun e : α × α × ℚ => (e.1 == u && e.2.1 == v) || (e.1 == v && e.2.1 == u))
      = (fun e : α × α × ℚ => (e.1 == v && e.2.1 == u) || (e.1 == u && e.2.1 == v)) := by
    funext e
    exact Bool.or_comm _ _
  simp only [wlookup, hfun]

lemma chainOk_append_one (G : List (α × α × ℚ)) :
    ∀ (l : List α) (a : α),
      chainOk G (l ++ [a]) =
        (chainOk G l &&
          match l.getLast? with
          | none => true
          | some x => (wlookup G x a).isSome) := by
  intro l
  induction l with
  | nil => intro a; simp [chainOk]
  | cons x xs ih =>
      intro a
      cases xs with
      | nil => simp [chainOk]
      | cons y ys =>
          have := ih a
          simp only [List.cons_append, List.append_eq, chainOk] at this ⊢
          rw [this, List.getLast?_cons_cons, Bool.and_assoc]

lemma chainOk_reverse (G : List (α × α × ℚ)) :
    ∀ l : List α, chainOk G l.reverse = chainOk G l := by
  intro l
  induction l with
  | nil => rfl
  | cons x xs ih =>
      rw [List.reverse_cons, chainOk_append_one, ih, List.getLast?_reverse]
      cases xs with
      | nil => rfl
      | cons y ys =>
          simp only [List.head?_cons, chainOk, wlookup_symm G y x]
          exact Bool.and_comm _ _

lemma weightOf_append_one (G : List (α × α × ℚ)) :
    ∀ (l : List α) (a : α),
      weightOf G (l ++ [a]) =
        weightOf G l +
          (match l.getLast? with
           | none => 0
           | some x => (wlookup G x a).getD 0) := by
  intro l
  induction l with
  | nil => intro a; simp [weightOf]
  | cons x xs ih =>
      intro a
      cases xs with
      | nil => simp [weightOf]
      | cons y ys =>
          have := ih a
          simp only [List.cons_append, List.append_eq, weightOf] at this ⊢
          rw [this, List.getLast?_cons_cons, add_assoc]

lemma weightOf_reverse (G : List (α × α × ℚ)) :
    ∀ l : List α, weightOf G l.reverse = weightOf G l := by
  intro l
  induction l with
  | nil => rfl
  | cons x xs ih =>
      rw [List.reverse_cons, weightOf_append_one, ih, List.getLast?_reverse]
      cases xs with
      | nil => simp [weightOf]
      | cons y ys =>
          simp only [List.head?_cons, weightOf, wlookup_symm G y x]
          exact add_comm _ _

lemma seqsFrom_sound :
    ∀ (n : Nat) (pool : List α), pool.Nodup →
      ∀ p ∈ seqsFrom n pool, p.Nodup ∧ (∀ x ∈ p, x ∈ pool) ∧ p.length ≤ n := by
  intro n
  induction n with
  | zero =>
      intro pool _ p hp
      simp [seqsFrom] at hp
      subst hp
      simp
  | succ m ih =>
      intro pool hpool p hp
      simp only [seqsFrom, List.mem_cons, List.mem_flatMap, List.mem_map] at hp
      rcases hp with rfl | ⟨x, hx, q, hq, rfl⟩
      · simp
      · obtain ⟨hnd, hsub, hlen⟩ := ih (pool.erase x) (hpool.erase x) q hq
        have hxq : x ∉ q := by
          intro hmem
          have := hsub x hmem
          rw [hpool.mem_erase_iff] at this
          exact this.1 rfl
        refine ⟨List.nodup_cons.mpr ⟨hxq, hnd⟩, ?_, by simpa using hlen⟩
        intro y hy
        rcases List.mem_cons.mp hy with rfl | hy'
        · exact hx
        · exact List.mem_of_mem_erase (hsub y hy')

lemma seqsFrom_complete :
    ∀ (p : List α) (n : Nat) (pool : List α), pool.Nodup → p.Nodup →
      (∀ x ∈ p, x ∈ pool) → p.length ≤ n → p ∈ seqsFrom n pool := by
  intro p
  induction p with
  | nil =>
      intro n pool _ _ _ _
      cases n with
      | zero => simp [seqsFrom]
      | succ m => simp [seqsFrom]
  | cons x q ih =>
      intro n pool hpool hnd hsub hlen
      cases n with
      | zero => simp at hlen
      | succ m =>
          simp only [seqsFrom, List.mem_cons, List.mem_flatMap, List.mem_map]
          refine Or.inr ⟨x, hsub x (by simp), q, ?_, rfl⟩
          refine ih m (pool.erase x) (hpool.erase x) (List.nodup_cons.mp hnd).2 ?_ ?_
          · intro y hy
            rw [hpool.mem_erase_iff]
            refine ⟨?_, hsub y (by simp [hy])⟩
            intro hyx
            exact (List.nodup_cons.mp hnd).1 (hyx ▸ hy)
          · simpa using Nat.le_of_succ_le_succ hlen

lemma mem_pathCands (G : List (α × α × ℚ)) (A B : α) (p : List α) :
    p ∈ pathCands G A B ↔
      p ∈ seqsFrom (nodesOf G).dedup.length (nodesOf G).dedup ∧
      p.head? = some A ∧ p.getLast? = some B ∧ chainOk G p = true := by
  simp [pathCands, List.mem_filter, Bool.and_eq_true, beq_iff_eq, and_assoc]

/-- Reversal maps candidate walks from `A` to `B` onto those from `B` to
`A`, preserving total weight (via `weightOf_reverse`). -/
lemma pathCands_reverse (G : List (α × α × ℚ)) (A B : α) (p : List α)
    (h : p ∈ pathCands G A B) : p.reverse ∈ pathCands G B A := by
  rw [mem_pathCands] at h ⊢
  obtain ⟨hseq, hhead, hlast, hchain⟩ := h
  obtain ⟨hnd, hsub, hlen⟩ :=
    seqsFrom_sound _ _ (List.nodup_dedup _) p hseq
  refine ⟨?_, ?_, ?_, ?_⟩
  · refine seqsFrom_complete _ _ _ (List.nodup_dedup _)
      (by simpa using hnd) ?_ (by simpa using hlen)
    intro x hx
    exact hsub x (by simpa using hx)
  · rw [List.head?_reverse]
    exact hlast
  · rw [List.getLast?_reverse]
    exact hhead
  · rw [chainOk_reverse]
    exact hchain

lemma minWalk_spec (G : List (α × α × ℚ)) :
    ∀ (l : List (List α)) (best : List α),
      minWalk G best l ∈ best :: l ∧
      weightOf G (minWalk G best l) ≤ weightOf G best ∧
      ∀ q ∈ l, weightOf G (minWalk G best l) ≤ weightOf G q := by
  intro l
  induction l with
  | nil => intro best; simp [minWalk]
  | cons q rest ih =>
      intro best
      by_cases hlt : weightOf G q < weightOf G best
      · obtain ⟨hmem, hle, hall⟩ := ih q
        simp only [minWalk, hlt, if_true]
        refine ⟨List.mem_cons_of_mem _ hmem, le_of_lt (lt_of_le_of_lt hle hlt), ?_⟩
        intro q' hq'
        rcases List.mem_cons.mp hq' with rfl | h
        · exact hle
        · exact hall q' h
      · obtain ⟨hmem, hle, hall⟩ := ih best
        simp only [minWalk, hlt, if_false]
        refine ⟨?_, hle, ?_⟩
        · rcases List.mem_cons.mp hmem with h | h
          · rw [h]; exact List.mem_cons_self _ _
          · exact List.mem_cons_of_mem _ (List.mem_cons_of_mem _ h)
        · intro q' hq'
          rcases List.mem_cons.mp hq' with rfl | h
          · exact le_trans hle (le_of_not_lt hlt)
          · exact hall q' h

lemma route_none_iff (G : List (α × α × ℚ)) (A B : α) :
    route G A B = none ↔ pathCands G A B = [] := by
  cases h : pathCands G A B <;> simp [route, h]

lemma route_some_spec (G : List (α × α × ℚ)) (A B : α) (p : List α)
    (h : route G A B = some p) :
    p ∈ pathCands G A B ∧ ∀ q ∈ pathCands G A B, weightOf G p ≤ weightOf G q := by
  rcases hc : pathCands G A B with _ | ⟨c, rest⟩
  · rw [route, hc] at h
    simp at h
  · rw [route, hc] at h
    simp only [Option.some.injEq] at h
    obtain ⟨hmem, hle, hall⟩ := minWalk_spec G rest c
    subst h
    refine ⟨by simpa [hc] using hmem, ?_⟩
    intro q hq
    rcases List.mem_cons.mp hq with rfl | hq'
    · exact hle
    · exact hall q hq'

end RouteLemmas

/-- Claim C8: for every graph and pair of nodes, the total weighted lengths
of `route(A, B)` and `route(B, A)` agree (including the failure cases,
which coincide): reversal is a weight-preserving bijection between the two
candidate sets of the undirected graph. -/
theorem route_round_trip {α : Type} [DecidableEq α]
    (G : List (α × α × ℚ)) (A B : α) :
    (route G A B).map (weightOf G) = (route G B A).map (weightOf G) := by
  rcases hAB : route G A B with _ | ⟨p⟩ <;> rcases hBA : route G B A with _ | ⟨q⟩
  · rfl
  · -- A→B has no candidate, yet B→A returned one: impossible by reversal
    rw [route_none_iff] at hAB
    obtain ⟨hq, _⟩ := route_some_spec G B A q hBA
    have := pathCands_reverse G B A q hq
    rw [hAB] at this
    simp at this
  · rw [route_none_iff] at hBA
    obtain ⟨hp, _⟩ := route_some_spec G A B p hAB
    have := pathCands_reverse G A B p hp
    rw [hBA] at this
    simp at this
  · obtain ⟨hp, hpmin⟩ := route_some_spec G A B p hAB
    obtain ⟨hq, hqmin⟩ := route_some_spec G B A q hBA
    have h1 : weightOf G p ≤ weightOf G q := by
      have := hpmin q.reverse (pathCands_reverse G B A q hq)
      rwa [weightOf_reverse] at this
    have h2 : weightOf G q ≤ weightOf G p := by
      have := hqmin p.reverse (pathCands_reverse G A B p hp)
      rwa [weightOf_reverse] at this
    simp [le_antisymm h1 h2]

/-- The exit scan never drops a non-empty accumulator. -/
lemma exitLoop_none_iff (d : Coord → Coord → ℚ) (G : List (GNode × GNode × ℚ))
    (graphs : String → List Coord) (start : GNode) :
    ∀ (l : List Room) (acc : Option (GNode × Coord × ℚ)),
      exitLoop d G graphs start l acc = none ↔
        acc = none ∧ ∀ r ∈ l, exitCand G graphs start r = none := by
  intro l
  induction l with
  | nil =>
      intro acc
      simp [exitLoop]
  | cons r rest ih =>
      intro acc
      rcases hc : exitCand G graphs start r with _ | ⟨b, p⟩
      · simp only [exitLoop, hc]
        rw [ih, List.forall_mem_cons]
        simp [hc]
      · rcases acc with _ | ⟨b0, c0, l0⟩
        · simp only [exitLoop, hc]
          rw [ih, List.forall_mem_cons]
          simp [hc]
        · simp only [exitLoop, hc]
          by_cases hlt : geomLen d p < l0
          · simp only [hlt, if_true]
            rw [ih, List.forall_mem_cons]
            simp [hc]
          · simp only [hlt, if_false]
            rw [ih, List.forall_mem_cons]
            simp [hc]

/-- Characterisation of the exit scan's output: the selected candidate comes
from the accumulator or from a list element, it undercuts any starting
accumulator, and its recorded geometric length is minimal among all
candidates of the list. -/
lemma exitLoop_some_spec (d : Coord → Coord → ℚ) (G : List (GNode × GNode × ℚ))
    (graphs : String → List Coord) (start : GNode) :
    ∀ (l : List Room) (acc : Option (GNode × Coord × ℚ)) (b : GNode) (c : Coord) (len : ℚ),
      exitLoop d G graphs start l acc = some (b, c, len) →
      (acc = some (b, c, len) ∨
        ∃ r ∈ l, ∃ p, exitCand G graphs start r = some (b, p) ∧
          c = r.coords ∧ len = geomLen d p) ∧
      (∀ b0 c0 l0, acc = some (b0, c0, l0) → len ≤ l0) ∧
      (∀ r ∈ l, ∀ b' p', exitCand G graphs start r = some (b', p') →
        len ≤ geomLen d p') := by
  intro l
  induction l with
  | nil =>
      intro acc b c len h
      simp only [exitLoop] at h
      refine ⟨Or.inl h, ?_, by simp⟩
      intro b0 c0 l0 hacc
      rw [hacc] at h
      simp at h
      exact le_of_eq h.2.2.symm
  | cons r rest ih =>
      intro acc b c len h
      rcases hc : exitCand G graphs start r with _ | ⟨bc, p⟩
      · rw [exitLoop] at h
        rw [hc] at h
        obtain ⟨h1, h2, h3⟩ := ih acc b c len h
        refine ⟨?_, h2, ?_⟩
        · rcases h1 with h1 | ⟨r', hr', p', hcand, hcc, hlen⟩
          · exact Or.inl h1
          · exact Or.inr ⟨r', by simp [hr'], p', hcand, hcc, hlen⟩
        · intro r' hr' b' p' hcand
          rcases List.mem_cons.mp hr' with rfl | hr''
          · rw [hc] at hcand
            cases hcand
          · exact h3 r' hr'' b' p' hcand
      · rcases acc with _ | ⟨b0, c0, l0⟩
        · rw [exitLoop] at h
          rw [hc] at h
          simp only at h
          obtain ⟨h1, h2, h3⟩ := ih _ b c len h
          refine ⟨?_, by simp, ?_⟩
          · rcases h1 with h1 | ⟨r', hr', p', hcand, hcc, hlen⟩
            · simp only [Option.some.injEq, Prod.mk.injEq] at h1
              exact Or.inr ⟨r, by simp, p, by rw [h1.1] at hc; exact hc,
                h1.2.1.symm, h1.2.2.symm⟩
            · exact Or.inr ⟨r', by simp [hr'], p', hcand, hcc, hlen⟩
          · intro r' hr' b' p' hcand
            rcases List.mem_cons.mp hr' with rfl | hr''
            · rw [hc] at hcand
              injection hcand with hbp
              injection hbp with hb hp
              rw [← hp]
              exact h2 _ _ _ rfl
            · exact h3 r' hr'' b' p' hcand
        · by_cases hlt : geomLen d p < l0
          · rw [exitLoop] at h
            rw [hc] at h
            simp only [hlt, if_true] at h
            obtain ⟨h1, h2, h3⟩ := ih _ b c len h
            have hlen0 : len ≤ geomLen d p := h2 _ _ _ rfl
            refine ⟨?_, ?_, ?_⟩
            · rcases h1 with h1 | ⟨r', hr', p', hcand, hcc, hlen⟩
              · simp only [Option.some.injEq, Prod.mk.injEq] at h1
                exact Or.inr ⟨r, by simp, p, by rw [h1.1] at hc; exact hc,
                  h1.2.1.symm, h1.2.2.symm⟩
              · exact Or.inr ⟨r', by simp [hr'], p', hcand, hcc, hlen⟩
            · intro b0' c0' l0' hacc
              cases hacc
              exact le_of_lt (lt_of_le_of_lt hlen0 hlt)
            · intro r' hr' b' p' hcand
              rcases List.mem_cons.mp hr' with rfl | hr''
              · rw [hc] at hcand
                injection hcand with hbp
                injection hbp with hb hp
                rw [← hp]
                exact hlen0
              · exact h3 r' hr'' b' p' hcand
          · rw [exitLoop] at h
            rw [hc] at h
            simp only [hlt, if_false] at h
            obtain ⟨h1, h2, h3⟩ := ih _ b c len h
            have hlen0 : len ≤ l0 := h2 _ _ _ rfl
            refine ⟨?_, ?_, ?_⟩
            · rcases h1 with h1 | ⟨r', hr', p', hcand, hcc, hlen⟩
              · exact Or.inl h1
              · exact Or.inr ⟨r', by simp [hr'], p', hcand, hcc, hlen⟩
            · intro b0' c0' l0' hacc
              cases hacc
              exact hlen0
            · intro r' hr' b' p' hcand
              rcases List.mem_cons.mp hr' with rfl | hr''
              · rw [hc] at hcand
                injection hcand with hbp
                injection hbp with hb hp
                rw [← hp]
                exact le_trans hlen0 (le_of_not_lt hlt)
              · exact h3 r' hr'' b' p' hcand

/-- A successful per-room candidate pins down the path search's output. -/
lemma exitCand_some_route (G : List (GNode × GNode × ℚ))
    (graphs : String → List Coord) (start : GNode) (r : Room) (b : GNode)
    (p : List GNode) (h : exitCand G graphs start r = some (b, p)) :
    route G start b = some p := by
  rw [exitCand] at h
  rcases hcc : connect_to_corridor r.coords (graphs r.floor) with _ | n
  · rw [hcc] at h
    cases h
  · rw [hcc] at h
    have h' : Option.map (fun p => ((r.floor, n), p)) (route G start (r.floor, n))
        = some (b, p) := h
    rcases hr : route G start (r.floor, n) with _ | q
    · rw [hr] at h'
      cases h'
    · rw [hr] at h'
      simp only [Option.map_some', Option.some.injEq, Prod.mk.injEq] at h'
      rw [← h'.1, ← h'.2]
      exact hr

/-- Claim C7: the "Exit" branch considers exactly the rooms whose type or
name contains "exit" (case-insensitively); a candidate is skipped — not
fatal — exactly when its centroid fails to snap or the path search fails;
the branch fails exactly when every exit candidate is skipped; and on
success it returns a reachable exit candidate whose recomputed total
geometric length (sum of the metric `d` over consecutive waypoints, not the
weighted search cost) is minimal among all reachable candidates.  The
metric `d` is arbitrary, so the statement holds for the Euclidean metric of
the source in particular. -/
theorem routeToNearestExit_spec (d : Coord → Coord → ℚ)
    (G : List (GNode × GNode × ℚ)) (graphs : String → List Coord)
    (rooms : List Room) (start : GNode) :
    (∀ r, exitCand G graphs start r = none ↔
      connect_to_corridor r.coords (graphs r.floor) = none ∨
      ∃ n, connect_to_corridor r.coords (graphs r.floor) = some n ∧
        route G start (r.floor, n) = none) ∧
    (routeToNearestExit d G graphs rooms start = none ↔
      ∀ r ∈ exitRooms rooms, exitCand G graphs start r = none) ∧
    (∀ b c, routeToNearestExit d G graphs rooms start = some (b, c) →
      ∃ r ∈ exitRooms rooms, ∃ p,
        exitCand G graphs start r = some (b, p) ∧ c = r.coords ∧
        route G start b = some p ∧
        ∀ r' ∈ exitRooms rooms, ∀ b' p',
          exitCand G graphs start r' = some (b', p') →
          geomLen d p ≤ geomLen d p') := by
  refine ⟨?_, ?_, ?_⟩
  · intro r
    rcases hcc : connect_to_corridor r.coords (graphs r.floor) with _ | n
    · simp [exitCand, hcc]
    · simp [exitCand, hcc, Option.map_eq_none']
  · rw [routeToNearestExit, Option.map_eq_none']
    rw [exitLoop_none_iff]
    simp
  · intro b c h
    rw [routeToNearestExit, Option.map_eq_some'] at h
    obtain ⟨t, ht, htv⟩ := h
    rcases t with ⟨b', c', len⟩
    simp only [Prod.mk.injEq] at htv
    obtain ⟨rfl, rfl⟩ := htv
    obtain ⟨h1, _h2, h3⟩ := exitLoop_some_spec d G graphs start _ none b' c' len ht
    rcases h1 with h1 | ⟨r, hr, p, hcand, hcc, hlen⟩
    · cases h1
    · refine ⟨r, hr, p, hcand, hcc, exitCand_some_route G graphs start r b' p hcand, ?_⟩
      intro r' hr' b'' p' hcand'
      have := h3 r' hr' b'' p' hcand'
      rw [hlen] at this
      exact this

/-- Witness for C7: the single reachable exit room is selected, and its path
length is minimal among all exit candidates. -/
theorem routeToNearestExit_spec_witness :
    ∃ r ∈ exitRooms exitDemoRooms, ∃ p,
      exitCand exitDemoGraph exitDemoFloors exitDemoStart r
          = some (("L", ((0 : ℚ), (0 : ℚ))), p) ∧
      ((0 : ℚ), (0 : ℚ)) = r.coords ∧
      route exitDemoGraph exitDemoStart ("L", ((0 : ℚ), (0 : ℚ))) = some p ∧
      ∀ r' ∈ exitRooms exitDemoRooms, ∀ b' p',
        exitCand exitDemoGraph exitDemoFloors exitDemoStart r' = some (b', p') →
        geomLen dist2 p ≤ geomLen dist2 p' :=
  (routeToNearestExit_spec dist2 exitDemoGraph exitDemoFloors exitDemoRooms
      exitDemoStart).2.2 ("L", (0, 0)) (0, 0) rfl

end IndoorNav
